import Mathlib

/-!
Verification of the doubly-linked `TransactionLog` (src/transaction-log/src/lib.rs).

The Rust source stores nodes as `Rc<RefCell<Node>>` with `prev`/`next` links of
type `Link = Option<Rc<RefCell<Node>>>`.  We embed this shallowly: every node
lives in a heap (an association list keyed by its allocation id), a `Link`
becomes `Option Nat`, and every place that holds an `Rc` clone in Rust (the
log's `head`/`tail` slots, each node's `prev`/`next`, and each live
`ListIterator`'s `current_link`) is a field of the explicit `State`.

`Rc::try_unwrap` in `pop` succeeds exactly when the strong count is 1, i.e.
when no referrer other than the local `head_node` binding remains; `refsTo`
counts those other referrers, and `pop` returns `Except.error ()` (the
`expect "Something is terribly wrong"` panic) when the count is nonzero.
-/

namespace TLog

/-- One list node, as in the Rust `struct Node`: a value plus optional
`prev`/`next` links (links are allocation ids into the heap). -/
structure Node where
  value : String
  prev : Option Nat
  next : Option Nat
deriving Repr, DecidableEq

/-- The store of allocated nodes, keyed by allocation id. -/
abbrev Heap := List (Nat × Node)

/-- Dereference a link: find the node with the given id. -/
def hlookup : Heap → Nat → Option Node
  | [], _ => none
  | (k, nd) :: t, n => if k = n then some nd else hlookup t n

/-- Mutate the node with the given id through `borrow_mut`. -/
def hmodify : Heap → Nat → (Node → Node) → Heap
  | [], _, _ => []
  | (k, nd) :: t, n, f => (k, if k = n then f nd else nd) :: hmodify t n f

/-- Release a node's storage (successful `Rc::try_unwrap` + drop). -/
def hremove : Heap → Nat → Heap
  | [], _ => []
  | (k, nd) :: t, n => if k = n then hremove t n else (k, nd) :: hremove t n

/-- The whole program state: the `TransactionLog` fields (`head`, `tail`,
`length`), the node heap with its allocation counter, and the
`current_link` field of every live `ListIterator`. -/
structure State where
  heap : Heap
  fresh : Nat
  head : Option Nat
  tail : Option Nat
  length : Nat
  cursors : List (Option Nat)
deriving Repr, DecidableEq

/-- The constructor `TransactionLog::new()` (with no live iterators). -/
def new : State :=
  { heap := [], fresh := 0, head := none, tail := none, length := 0, cursors := [] }

/-- Rust `TransactionLog::append(value)`: allocate `Node::new(value)`; if a tail
exists, set the old tail's `next` to the new node and the new node's `prev`
to the old tail, else set `head`; increment `length`; set `tail`. -/
def append (s : State) (value : String) : State :=
  let newId := s.fresh
  let h0 : Heap := (newId, { value := value, prev := none, next := none }) :: s.heap
  match s.tail with
  | some oldId =>
    let h1 := hmodify h0 oldId fun nd => { nd with next := some newId }
    let h2 := hmodify h1 newId fun nd => { nd with prev := some oldId }
    { heap := h2, fresh := newId + 1, head := s.head, tail := some newId,
      length := s.length + 1, cursors := s.cursors }
  | none =>
    { heap := h0, fresh := newId + 1, head := some newId, tail := some newId,
      length := s.length + 1, cursors := s.cursors }

/-- Number of references a single link slot holds to node `n`. -/
def optRefs (o : Option Nat) (n : Nat) : Nat :=
  if o = some n then 1 else 0

/-- Strong count of node `n` excluding one local binding: references from the
log's `head`/`tail` slots, from every node's `prev`/`next`, and from every
live iterator's `current_link`.  `Rc::try_unwrap` succeeds iff this is 0. -/
def refsTo (s : State) (n : Nat) : Nat :=
  optRefs s.head n + optRefs s.tail n
    + (s.heap.map fun p => optRefs p.2.prev n + optRefs p.2.next n).sum
    + (s.cursors.map fun c => optRefs c n).sum

/-- Rust `TransactionLog::pop()`: take the head; if a successor exists, clear its
`prev` and promote it to head, else clear `tail`; decrement `length`; then
`Rc::try_unwrap` the removed node — `.error ()` models the
`expect("Something is terribly wrong")` panic when the node is still
referenced elsewhere.  The inner `.error ()` for a dangling head id cannot
arise in Rust (the `Rc` keeps its target alive) and is unreachable from
reachable states. -/
def pop (s : State) : Except Unit (Option String × State) :=
  match s.head with
  | none => .ok (none, s)
  | some hid =>
    match hlookup s.heap hid with
    | none => .error ()
    | some hnode =>
      let h1 := hmodify s.heap hid fun nd => { nd with next := none }
      match hnode.next with
      | some nid =>
        let h2 := hmodify h1 nid fun nd => { nd with prev := none }
        let s2 : State := { s with heap := h2, head := some nid, length := s.length - 1 }
        if refsTo s2 hid = 0 then
          .ok (some hnode.value, { s2 with heap := hremove s2.heap hid })
        else
          .error ()
      | none =>
        let s2 : State :=
          { s with heap := h1, head := none, tail := none, length := s.length - 1 }
        if refsTo s2 hid = 0 then
          .ok (some hnode.value, { s2 with heap := hremove s2.heap hid })
        else
          .error ()

/-- Rust `TransactionLog::iter()`: a new `ListIterator` whose `current_link` is a
clone of `head`.  Returns the updated state and the new iterator's index. -/
def iter (s : State) : State × Nat :=
  ({ s with cursors := s.cursors ++ [s.head] }, s.cursors.length)

/-- Rust `TransactionLog::back_iter()`: a new `ListIterator` seeded at `tail`. -/
def back_iter (s : State) : State × Nat :=
  ({ s with cursors := s.cursors ++ [s.tail] }, s.cursors.length)

/-- Rust `ListIterator::next()` on iterator `i`: if `current_link` is a node, the
result is its value and `current_link` becomes a clone of its `next`;
otherwise the result is `none` and `current_link` is written back as `none`.
Out-of-range `i` (no such iterator) leaves everything unchanged. -/
def cursorNext (s : State) (i : Nat) : Option String × State :=
  match s.cursors[i]? with
  | none => (none, s)
  | some link =>
    match link with
    | some n =>
      match hlookup s.heap n with
      | none => (none, s)
      | some nd => (some nd.value, { s with cursors := s.cursors.set i nd.next })
    | none => (none, { s with cursors := s.cursors.set i none })

/-- Rust `ListIterator::next_back()`: symmetric to `cursorNext`, following `prev`. -/
def cursorNextBack (s : State) (i : Nat) : Option String × State :=
  match s.cursors[i]? with
  | none => (none, s)
  | some link =>
    match link with
    | some n =>
      match hlookup s.heap n with
      | none => (none, s)
      | some nd => (some nd.value, { s with cursors := s.cursors.set i nd.prev })
    | none => (none, { s with cursors := s.cursors.set i none })

/-- Iterate `ListIterator::next()` on iterator `i`, keeping only the state. -/
def advanceN (s : State) (i : Nat) : Nat → State
  | 0 => s
  | k + 1 => advanceN (cursorNext s i).2 i k

/-- Iterate `ListIterator::next_back()` on iterator `i`, state only. -/
def advanceBackN (s : State) (i : Nat) : Nat → State
  | 0 => s
  | k + 1 => advanceBackN (cursorNextBack s i).2 i k

/-- Drain a forward iterator: the values produced by repeatedly calling
`ListIterator::next()` starting from link `c`, with enough fuel.  Mirrors the
body of `next`: read the current node's value, move to its `next`. -/
def collectFwd (h : Heap) : Option Nat → Nat → List String
  | _, 0 => []
  | none, _ + 1 => []
  | some n, fuel + 1 =>
    match hlookup h n with
    | none => []
    | some nd => nd.value :: collectFwd h nd.next fuel

/-- Drain a backward iterator (`ListIterator::next_back()`), following `prev`. -/
def collectBwd (h : Heap) : Option Nat → Nat → List String
  | _, 0 => []
  | none, _ + 1 => []
  | some n, fuel + 1 =>
    match hlookup h n with
    | none => []
    | some nd => nd.value :: collectBwd h nd.prev fuel

/-- One client call on the log itself. -/
inductive Op where
  | app : String → Op
  | pop : Op
deriving Repr, DecidableEq

/-- Run a sequence of log operations, collecting each pop's result.
Propagates the panic (`.error`) of `pop`. -/
def run (s : State) : List Op → Except Unit (State × List (Option String))
  | [] => .ok (s, [])
  | Op.app v :: ops => run (append s v) ops
  | Op.pop :: ops =>
    match pop s with
    | .error e => .error e
    | .ok (r, s1) =>
      match run s1 ops with
      | .error e => .error e
      | .ok (s2, outs) => .ok (s2, r :: outs)

/-- The number of `append` calls in a sequence of operations. -/
def countApps (ops : List Op) : Nat :=
  (ops.filter fun o => match o with | Op.app _ => true | Op.pop => false).length

/-- The abstract queue model: the list of appended-but-not-popped values.
`Op.app` enqueues at the back; `Op.pop` emits `head?` and drops the head. -/
def absRun (q : List String) : List Op → List String × List (Option String)
  | [] => (q, [])
  | Op.app v :: ops => absRun (q ++ [v]) ops
  | Op.pop :: ops =>
    let p := absRun q.tail ops
    (p.1, q.head? :: p.2)

/-! ## The chain representation predicate

`DLL h p c ids vs` says: starting from link `c`, following `next` visits
exactly the nodes `ids` with values `vs`, the first visited node's stored
`prev` is `p`, every later node's stored `prev` is its actual predecessor,
and the last node's `next` is absent. -/

inductive DLL (h : Heap) : Option Nat → Option Nat → List Nat → List String → Prop where
  | nil (p : Option Nat) : DLL h p none [] []
  | cons (p : Option Nat) (n : Nat) (v : String) (nxt : Option Nat)
      (ids : List Nat) (vs : List String)
      (hl : hlookup h n = some { value := v, prev := p, next := nxt })
      (rest : DLL h (some n) nxt ids vs) :
      DLL h p (some n) (n :: ids) (v :: vs)

/-! ## The log invariant -/

/-- Well-formedness of a state: the heap holds exactly the chain nodes
`ids` (with values `vs`) linked doubly from `head` to `tail`, `length`
matches, allocation ids are below the counter, and every live iterator
references a chain node or nothing. -/
structure Inv (s : State) (ids : List Nat) (vs : List String) : Prop where
  dll : DLL s.heap none s.head ids vs
  tail_eq : s.tail = ids.getLast?
  len_eq : s.length = ids.length
  dom : ∀ n : Nat, (hlookup s.heap n).isSome ↔ n ∈ ids
  keys : (s.heap.map Prod.fst).Nodup
  fresh_gt : ∀ n ∈ ids, n < s.fresh
  nodup : ids.Nodup
  curs : ∀ c ∈ s.cursors, ∀ n : Nat, c = some n → n ∈ ids

/-- The nodes visited by following only `next` from a link. -/
inductive NextWalk (h : Heap) : Option Nat → List Nat → Prop where
  | nil : NextWalk h none []
  | cons (n : Nat) (nd : Node) (ids : List Nat) (hl : hlookup h n = some nd)
      (rest : NextWalk h nd.next ids) : NextWalk h (some n) (n :: ids)

/-- States reachable through the public API: a fresh log transformed by any
sequence of `append`, successful `pop`, iterator creation and iterator
advancement. -/
inductive Reachable : State → Prop where
  | new : Reachable new
  | app (s : State) (v : String) : Reachable s → Reachable (append s v)
  | popped (s : State) (r : Option String) (s' : State) :
      Reachable s → pop s = .ok (r, s') → Reachable s'
  | mkIter (s : State) : Reachable s → Reachable (iter s).1
  | mkBackIter (s : State) : Reachable s → Reachable (back_iter s).1
  | stepFwd (s : State) (i : Nat) : Reachable s → Reachable (cursorNext s i).2
  | stepBwd (s : State) (i : Nat) : Reachable s → Reachable (cursorNextBack s i).2

/-! ## Heap lemmas -/

theorem hlookup_hmodify (h : Heap) (n : Nat) (f : Node → Node) (m : Nat) :
    hlookup (hmodify h n f) m =
      if m = n then (hlookup h m).map f else hlookup h m := by
  induction h with
  | nil => by_cases hm : m = n <;> simp [hmodify, hlookup, hm]
  | cons p t ih =>
    obtain ⟨k, nd⟩ := p
    by_cases hk : k = m
    · subst hk
      by_cases hn : k = n <;> simp [hmodify, hlookup, hn]
    · by_cases hn : k = n
      · subst hn
        have hnm : ¬k = m := hk
        simp [hmodify, hlookup, hnm, ih]
      · simp [hmodify, hlookup, hn, hk, ih]

theorem hlookup_hremove (h : Heap) (n m : Nat) :
    hlookup (hremove h n) m = if m = n then none else hlookup h m := by
  induction h with
  | nil => by_cases hm : m = n <;> simp [hremove, hlookup, hm]
  | cons p t ih =>
    obtain ⟨k, nd⟩ := p
    by_cases hn : k = n
    · subst hn
      by_cases hm : k = m
      · subst hm
        simpa [hremove, hlookup] using ih
      · simp [hremove, hlookup, hm, ih]
    · by_cases hm : k = m
      · subst hm
        simp [hremove, hlookup, hn, Ne.symm hn]
      · simp [hremove, hlookup, hn, hm, ih]

theorem hmodify_keys (h : Heap) (n : Nat) (f : Node → Node) :
    (hmodify h n f).map Prod.fst = h.map Prod.fst := by
  induction h with
  | nil => rfl
  | cons p t ih =>
    obtain ⟨k, nd⟩ := p
    simp [hmodify, ih]

theorem hremove_sublist (h : Heap) (n : Nat) : List.Sublist (hremove h n) h := by
  induction h with
  | nil => simp [hremove]
  | cons p t ih =>
    obtain ⟨k, nd⟩ := p
    by_cases hn : k = n
    · rw [hremove, if_pos hn]
      exact List.Sublist.cons (k, nd) ih
    · rw [hremove, if_neg hn]
      exact List.Sublist.cons₂ (k, nd) ih

theorem hremove_keys_nodup (h : Heap) (n : Nat)
    (hnd : (h.map Prod.fst).Nodup) : ((hremove h n).map Prod.fst).Nodup :=
  (((hremove_sublist h n).map Prod.fst).nodup) hnd

theorem hlookup_isSome_of_mem (h : Heap) (k : Nat) (nd : Node)
    (hm : (k, nd) ∈ h) : (hlookup h k).isSome := by
  induction h with
  | nil => cases hm
  | cons p t ih =>
    obtain ⟨k', nd'⟩ := p
    rcases List.mem_cons.1 hm with he | hm
    · cases he
      simp [hlookup]
    · by_cases hk : k' = k
      · simp [hlookup, hk]
      · simpa [hlookup, hk] using ih hm

theorem mem_hlookup_eq (h : Heap) (k : Nat) (nd : Node)
    (hnd : (h.map Prod.fst).Nodup) (hm : (k, nd) ∈ h) :
    hlookup h k = some nd := by
  induction h with
  | nil => cases hm
  | cons p t ih =>
    obtain ⟨k', nd'⟩ := p
    simp only [List.map_cons, List.nodup_cons] at hnd
    rcases List.mem_cons.1 hm with he | hm
    · cases he
      simp [hlookup]
    · have hk : k' ≠ k := by
        intro he
        subst he
        exact hnd.1 (List.mem_map_of_mem Prod.fst hm)
      simpa [hlookup, hk] using ih hnd.2 hm

theorem list_set_get?_self {α : Type} (l : List α) (i : Nat) (a : α)
    (hg : l.get? i = some a) : l.set i a = l := by
  induction l generalizing i with
  | nil => simp at hg
  | cons x t ih =>
    cases i with
    | zero =>
      simp only [List.get?] at hg
      cases hg
      rfl
    | succ j =>
      simp only [List.get?] at hg
      simp [List.set, ih j hg]


theorem dll_len {h : Heap} {p c : Option Nat} {ids : List Nat} {vs : List String}
    (d : DLL h p c ids vs) : ids.length = vs.length := by
  induction d with
  | nil => rfl
  | cons _ _ _ _ _ _ _ _ ih => simpa using ih

theorem dll_none_iff {h : Heap} {p c : Option Nat} {ids : List Nat} {vs : List String}
    (d : DLL h p c ids vs) : c = none ↔ ids = [] := by
  cases d with
  | nil => simp
  | cons => simp

theorem dll_frame {h h2 : Heap} {p c : Option Nat} {ids : List Nat} {vs : List String}
    (d : DLL h p c ids vs) (hag : ∀ n ∈ ids, hlookup h2 n = hlookup h n) :
    DLL h2 p c ids vs := by
  induction d with
  | nil => exact DLL.nil _
  | cons p n v nxt ids vs hl _ ih =>
    refine DLL.cons p n v nxt ids vs ?_ (ih fun m hm => hag m (by simp [hm]))
    rw [hag n (by simp)]
    exact hl

theorem dll_isSome {h : Heap} {p c : Option Nat} {ids : List Nat} {vs : List String}
    (d : DLL h p c ids vs) : ∀ n ∈ ids, (hlookup h n).isSome := by
  induction d with
  | nil => intro n hn; cases hn
  | cons p n v nxt ids vs hl _ ih =>
    intro m hm
    rcases List.mem_cons.1 hm with he | hm
    · subst he; simp [hl]
    · exact ih m hm

theorem dll_links {h : Heap} {p c : Option Nat} {ids : List Nat} {vs : List String}
    (d : DLL h p c ids vs) :
    ∀ n ∈ ids, ∀ nd, hlookup h n = some nd →
      (∀ m, nd.next = some m → m ∈ ids.tail) ∧
      (∀ m, nd.prev = some m → some m = p ∨ m ∈ ids) := by
  induction d with
  | nil => intro n hn; cases hn
  | cons p n v nxt ids vs hl rest ih =>
    intro a ha nd hnd
    rcases List.mem_cons.1 ha with he | ha
    · subst he
      rw [hl] at hnd
      cases hnd
      constructor
      · intro m hm
        simp only at hm
        subst hm
        cases rest with
        | cons _ _ _ _ _ _ _ _ => simp
      · intro m hm
        simp only at hm
        exact Or.inl hm.symm
    · have := ih a ha nd hnd
      constructor
      · intro m hm
        exact List.tail_subset ids (this.1 m hm)
      · intro m hm
        rcases this.2 m hm with hp | hi
        · cases hp
          exact Or.inr (by simp)
        · exact Or.inr (List.mem_cons_of_mem _ hi)

theorem dll_next_mem_tail {h : Heap} {p c : Option Nat} {ids : List Nat}
    {vs : List String} (d : DLL h p c ids vs) :
    ∀ n ∈ ids, ∀ nd, hlookup h n = some nd → ∀ m, nd.next = some m →
      m ∈ ids.tail :=
  fun n hn nd hnd m hm => ((dll_links d) n hn nd hnd).1 m hm

theorem dll_next_prev {h : Heap} {p c : Option Nat} {ids : List Nat}
    {vs : List String} (d : DLL h p c ids vs) :
    ∀ a ∈ ids, ∀ nda, hlookup h a = some nda → ∀ b, nda.next = some b →
      ∀ ndb, hlookup h b = some ndb → ndb.prev = some a := by
  induction d with
  | nil => intro a ha; cases ha
  | cons p n v nxt ids vs hl rest ih =>
    intro a ha nda hnda b hb ndb hndb
    rcases List.mem_cons.1 ha with he | ha
    · subst he
      rw [hl] at hnda
      cases hnda
      simp only at hb
      subst hb
      cases rest with
      | cons _ n2 v2 nxt2 ids2 vs2 hl2 _ =>
        rw [hl2] at hndb
        cases hndb
        rfl
    · exact ih a ha nda hnda b hb ndb hndb

theorem dll_prev_next {h : Heap} {p c : Option Nat} {ids : List Nat}
    {vs : List String} (d : DLL h p c ids vs) :
    ∀ b ∈ ids, ∀ ndb, hlookup h b = some ndb → ∀ a, ndb.prev = some a →
      (p = some a ∧ c = some b) ∨
        ∃ nda, hlookup h a = some nda ∧ nda.next = some b := by
  induction d with
  | nil => intro b hb; cases hb
  | cons p n v nxt ids vs hl rest ih =>
    intro b hb ndb hndb a ha
    rcases List.mem_cons.1 hb with he | hb
    · subst he
      rw [hl] at hndb
      cases hndb
      simp only at ha
      exact Or.inl ⟨ha, rfl⟩
    · rcases ih b hb ndb hndb a ha with ⟨hpa, hcb⟩ | hr
      · cases hpa
        exact Or.inr ⟨_, hl, hcb⟩
      · exact Or.inr hr

theorem dll_last {h : Heap} {p c : Option Nat} {ids : List Nat}
    {vs : List String} (d : DLL h p c ids vs) :
    ∀ t, ids.getLast? = some t → ∃ nd, hlookup h t = some nd ∧ nd.next = none := by
  induction d with
  | nil => intro t ht; simp at ht
  | cons p n v nxt ids vs hl rest ih =>
    intro t ht
    cases ids with
    | nil =>
      simp at ht
      subst ht
      cases rest with
      | nil => exact ⟨_, hl, rfl⟩
    | cons b l =>
      rw [List.getLast?_cons_cons] at ht
      exact ih t ht

theorem dll_snoc {h h2 : Heap} {p c : Option Nat} {ids : List Nat}
    {vs : List String} {t m : Nat} {v : String}
    (d : DLL h p c ids vs)
    (ht : ∀ vt pt, hlookup h t = some { value := vt, prev := pt, next := none } →
      hlookup h2 t = some { value := vt, prev := pt, next := some m })
    (hm : hlookup h2 m = some { value := v, prev := some t, next := none }) :
    ids.Nodup → ids.getLast? = some t →
    (∀ k ∈ ids, k ≠ t → hlookup h2 k = hlookup h k) →
    DLL h2 p c (ids ++ [m]) (vs ++ [v]) := by
  induction d with
  | nil => intro _ hlast _; simp at hlast
  | cons p n vn nxt ids vs hl rest ih =>
    intro hnd hlast hag
    cases ids with
    | nil =>
      have hnt : n = t := by simpa using hlast
      subst hnt
      cases rest
      have hn2 := ht vn p hl
      refine DLL.cons p n vn (some m) [m] [v] hn2 ?_
      exact DLL.cons (some n) m v none [] [] hm (DLL.nil _)
    | cons b l =>
      have hlast2 : (b :: l).getLast? = some t := by
        rwa [List.getLast?_cons_cons] at hlast
      have hnmem : n ∉ b :: l := (List.nodup_cons.1 hnd).1
      have hnt : n ≠ t := fun he =>
        hnmem (he ▸ List.mem_of_mem_getLast? hlast2)
      have hrest := ih (List.nodup_cons.1 hnd).2 hlast2
        (fun k hk hkt => hag k (List.mem_cons_of_mem _ hk) hkt)
      refine DLL.cons p n vn nxt ((b :: l) ++ [m]) (vs ++ [v]) ?_ hrest
      rw [hag n (by simp) hnt]
      exact hl

theorem collectFwd_none (h : Heap) (fuel : Nat) : collectFwd h none fuel = [] := by
  cases fuel <;> rfl

theorem collectBwd_none (h : Heap) (fuel : Nat) : collectBwd h none fuel = [] := by
  cases fuel <;> rfl

theorem collect_fwd_dll {h : Heap} {p c : Option Nat} {ids : List Nat}
    {vs : List String} (d : DLL h p c ids vs) :
    ∀ fuel, ids.length ≤ fuel → collectFwd h c fuel = vs := by
  induction d with
  | nil => intro fuel _; exact collectFwd_none h fuel
  | cons p n v nxt ids vs hl rest ih =>
    intro fuel hf
    cases fuel with
    | zero => simp at hf
    | succ f =>
      have hrec := ih f (by simpa using hf)
      simp [collectFwd, hl, hrec]

theorem collect_bwd_dll {h : Heap} {p c : Option Nat} {ids : List Nat}
    {vs : List String} (d : DLL h p c ids vs) :
    ∀ t, ids.getLast? = some t → ∀ fuel, ids.length ≤ fuel →
      collectBwd h (some t) fuel = vs.reverse ++ collectBwd h p (fuel - ids.length) := by
  induction d with
  | nil => intro t ht; simp at ht
  | cons p n v nxt ids vs hl rest ih =>
    intro t hlast fuel hf
    cases ids with
    | nil =>
      have hnt : n = t := by simpa using hlast
      subst hnt
      cases rest
      cases fuel with
      | zero => simp at hf
      | succ f => simp [collectBwd, hl]
    | cons b l =>
      have hlast2 : (b :: l).getLast? = some t := by
        rwa [List.getLast?_cons_cons] at hlast
      have hlen : (b :: l).length + 1 ≤ fuel := by simpa using hf
      have hrec := ih t hlast2 fuel (le_of_add_le_left hlen)
      have hsub : fuel - (b :: l).length = (fuel - (n :: b :: l).length) + 1 := by
        simp only [List.length_cons] at *
        omega
      rw [hrec, hsub]
      simp only [collectBwd, hl]
      simp [List.reverse_cons, List.append_assoc]


theorem inv_new : Inv new [] [] := by
  refine ⟨DLL.nil _, rfl, rfl, ?_, ?_, ?_, ?_, ?_⟩
  · intro n; simp [new, hlookup]
  · simp [new]
  · intro n hn; cases hn
  · simp
  · intro c hc; simp [new] at hc

theorem dll_head {h : Heap} {p c : Option Nat} {ids : List Nat}
    {vs : List String} (d : DLL h p c ids vs) : c = ids.head? := by
  cases d <;> rfl

theorem not_key_of_lookup_none (h : Heap) (k : Nat)
    (hl : hlookup h k = none) : k ∉ h.map Prod.fst := by
  intro hk
  rcases List.mem_map.1 hk with ⟨pr, hpr, hfst⟩
  have := hlookup_isSome_of_mem h pr.1 pr.2 hpr
  rw [hfst, hl] at this
  cases this

theorem append_of_tail_none (s : State) (v : String) (ht : s.tail = none) :
    append s v =
      { heap := (s.fresh, { value := v, prev := none, next := none }) :: s.heap,
        fresh := s.fresh + 1, head := some s.fresh, tail := some s.fresh,
        length := s.length + 1, cursors := s.cursors } := by
  simp [append, ht]

theorem append_of_tail_some (s : State) (v : String) (t : Nat)
    (ht : s.tail = some t) :
    append s v =
      { heap := hmodify (hmodify
            ((s.fresh, { value := v, prev := none, next := none }) :: s.heap)
            t fun nd => { nd with next := some s.fresh })
          s.fresh fun nd => { nd with prev := some t },
        fresh := s.fresh + 1, head := s.head, tail := some s.fresh,
        length := s.length + 1, cursors := s.cursors } := by
  simp [append, ht]

theorem inv_append {s : State} {ids : List Nat} {vs : List String}
    (hi : Inv s ids vs) (v : String) :
    Inv (append s v) (ids ++ [s.fresh]) (vs ++ [v]) := by
  have hfresh_not_mem : s.fresh ∉ ids := fun hmem =>
    lt_irrefl s.fresh (hi.fresh_gt s.fresh hmem)
  have hfresh_lookup : hlookup s.heap s.fresh = none := by
    rcases ho : hlookup s.heap s.fresh with _ | nd
    · rfl
    · exact absurd ((hi.dom s.fresh).1 (by simp [ho])) hfresh_not_mem
  have hfresh_key : s.fresh ∉ s.heap.map Prod.fst :=
    not_key_of_lookup_none s.heap s.fresh hfresh_lookup
  rcases hlast : ids.getLast? with _ | t
  · -- empty log: tail is absent, new node becomes head and tail
    have hids : ids = [] := List.getLast?_eq_none_iff.1 hlast
    subst hids
    have hvs : vs = [] := by
      have := dll_len hi.dll
      cases vs
      · rfl
      · simp at this
    subst hvs
    have htail : s.tail = none := by simpa using hi.tail_eq
    rw [append_of_tail_none s v htail]
    refine ⟨?_, ?_, ?_, ?_, ?_, ?_, ?_, ?_⟩
    · refine DLL.cons none s.fresh v none [] [] ?_ (DLL.nil _)
      simp [hlookup]
    · simp
    · simpa using hi.len_eq
    · intro n
      by_cases hn : n = s.fresh
      · subst hn; simp [hlookup]
      · have hd := hi.dom n
        simp only [List.not_mem_nil, iff_false] at hd
        simp [hlookup, Ne.symm hn, hd, hn]
    · simp only [List.map_cons]
      exact List.nodup_cons.2 ⟨hfresh_key, hi.keys⟩
    · intro n hn
      simp only [List.nil_append, List.mem_singleton] at hn
      subst hn
      exact Nat.lt_succ_self _
    · simp
    · intro c hc n hcn
      exact absurd (hi.curs c hc n hcn) (List.not_mem_nil n)
  · -- non-empty log: link the new node after the old tail
    have htail : s.tail = some t := by rw [hi.tail_eq, hlast]
    have htmem : t ∈ ids := List.mem_of_mem_getLast? hlast
    have htne : t ≠ s.fresh := Nat.ne_of_lt (hi.fresh_gt t htmem)
    rw [append_of_tail_some s v t htail]
    set h2 : Heap := hmodify (hmodify
        ((s.fresh, { value := v, prev := none, next := none }) :: s.heap)
        t fun nd => { nd with next := some s.fresh })
      s.fresh fun nd => { nd with prev := some t } with hh2
    have lookA : ∀ k, k ≠ t → k ≠ s.fresh → hlookup h2 k = hlookup s.heap k := by
      intro k hkt hkf
      rw [hh2, hlookup_hmodify, if_neg hkf, hlookup_hmodify, if_neg hkt]
      simp [hlookup, Ne.symm hkf]
    have lookB : hlookup h2 t =
        (hlookup s.heap t).map fun nd => { nd with next := some s.fresh } := by
      rw [hh2, hlookup_hmodify, if_neg htne, hlookup_hmodify, if_pos rfl]
      simp [hlookup, Ne.symm htne]
    have lookC : hlookup h2 s.fresh =
        some { value := v, prev := some t, next := none } := by
      rw [hh2, hlookup_hmodify, if_pos rfl, hlookup_hmodify,
        if_neg (Ne.symm htne)]
      simp [hlookup]
    refine ⟨?_, ?_, ?_, ?_, ?_, ?_, ?_, ?_⟩
    · refine dll_snoc hi.dll ?_ lookC hi.nodup hlast ?_
      · intro vt pt hvt
        rw [lookB, hvt]
        rfl
      · intro k hk hkt
        exact lookA k hkt (Nat.ne_of_lt (hi.fresh_gt k hk))
    · simp [List.getLast?_concat]
    · simpa using hi.len_eq
    · intro n
      by_cases hnf : n = s.fresh
      · subst hnf
        simp [lookC]
      · by_cases hnt : n = t
        · subst hnt
          have hsome : (hlookup s.heap n).isSome := (hi.dom n).2 htmem
          rcases Option.isSome_iff_exists.1 hsome with ⟨nd, hnd⟩
          simp [lookB, hnd, htmem]
        · rw [lookA n hnt hnf]
          rw [hi.dom n]
          simp [hnf]
    · have hkeys : h2.map Prod.fst = s.fresh :: s.heap.map Prod.fst := by
        rw [hh2, hmodify_keys, hmodify_keys]
        rfl
      rw [hkeys]
      exact List.nodup_cons.2 ⟨hfresh_key, hi.keys⟩
    · intro n hn
      rcases List.mem_append.1 hn with hn | hn
      · exact Nat.lt_succ_of_lt (hi.fresh_gt n hn)
      · simp only [List.mem_singleton] at hn
        subst hn
        exact Nat.lt_succ_self _
    · rw [List.nodup_append]
      exact ⟨hi.nodup, List.nodup_singleton _, by
        intro a ha hb
        simp only [List.mem_singleton] at hb
        subst hb
        exact hfresh_not_mem ha⟩
    · intro c hc n hcn
      exact List.mem_append.2 (Or.inl (hi.curs c hc n hcn))

/-! ## Specification of pop -/

theorem optRefs_eq_zero {o : Option Nat} {n : Nat} (h : o ≠ some n) :
    optRefs o n = 0 := by
  simp [optRefs, h]

theorem heap_refs_zero {h : Heap} {ids : List Nat} {n0 : Nat}
    (hk : (h.map Prod.fst).Nodup)
    (hdom : ∀ n, (hlookup h n).isSome ↔ n ∈ ids)
    (hgood : ∀ k ∈ ids, ∀ nd, hlookup h k = some nd →
      nd.prev ≠ some n0 ∧ nd.next ≠ some n0) :
    (h.map fun p => optRefs p.2.prev n0 + optRefs p.2.next n0).sum = 0 := by
  apply List.sum_eq_zero
  intro x hx
  rcases List.mem_map.1 hx with ⟨p, hp, he⟩
  obtain ⟨k, nd⟩ := p
  have hmem : k ∈ ids := (hdom k).1 (hlookup_isSome_of_mem h k nd hp)
  have hval := mem_hlookup_eq h k nd hk hp
  have hg := hgood k hmem nd hval
  rw [← he, optRefs_eq_zero hg.1, optRefs_eq_zero hg.2]
  rfl

theorem curs_sum_zero {cs : List (Option Nat)} {n0 : Nat}
    (h : ∀ c ∈ cs, c ≠ some n0) : (cs.map fun c => optRefs c n0).sum = 0 := by
  apply List.sum_eq_zero
  intro x hx
  rcases List.mem_map.1 hx with ⟨c, hc, he⟩
  rw [← he, optRefs_eq_zero (h c hc)]

theorem curs_sum_pos {cs : List (Option Nat)} {n0 : Nat}
    (h : some n0 ∈ cs) : 1 ≤ (cs.map fun c => optRefs c n0).sum := by
  have hm : optRefs (some n0) n0 ∈ cs.map fun c => optRefs c n0 :=
    List.mem_map_of_mem _ h
  simpa [optRefs] using List.single_le_sum (fun x _ => Nat.zero_le x) _ hm

theorem pop_eq_last {s : State} {n0 : Nat} {v0 : String} {p0 : Option Nat}
    (hhead : s.head = some n0)
    (hl : hlookup s.heap n0 = some { value := v0, prev := p0, next := none }) :
    pop s =
      if refsTo { s with
          heap := hmodify s.heap n0 (fun nd => { nd with next := none }),
          head := none, tail := none, length := s.length - 1 } n0 = 0 then
        .ok (some v0,
          { s with
            heap := hremove (hmodify s.heap n0 (fun nd => { nd with next := none })) n0,
            head := none, tail := none, length := s.length - 1 })
      else .error () := by
  simp [pop, hhead, hl]

theorem pop_eq_mid {s : State} {n0 n1 : Nat} {v0 : String} {p0 : Option Nat}
    (hhead : s.head = some n0)
    (hl : hlookup s.heap n0 = some { value := v0, prev := p0, next := some n1 }) :
    pop s =
      if refsTo { s with
          heap := hmodify (hmodify s.heap n0 (fun nd => { nd with next := none })) n1
            (fun nd => { nd with prev := none }),
          head := some n1, length := s.length - 1 } n0 = 0 then
        .ok (some v0,
          { s with
            heap := hremove (hmodify (hmodify s.heap n0
                (fun nd => { nd with next := none })) n1
              (fun nd => { nd with prev := none })) n0,
            head := some n1, length := s.length - 1 })
      else .error () := by
  simp [pop, hhead, hl]

/-- Full specification of `pop` on a well-formed non-empty log: it panics
exactly when some live iterator still references the head node; otherwise it
returns the head value and preserves the invariant on the remaining chain. -/
theorem pop_spec {s : State} {n0 : Nat} {rest : List Nat} {v0 : String}
    {vrest : List String} (hi : Inv s (n0 :: rest) (v0 :: vrest)) :
    (some n0 ∈ s.cursors → pop s = .error ()) ∧
    ((∀ c ∈ s.cursors, c ≠ some n0) →
      ∃ s', pop s = .ok (some v0, s') ∧ Inv s' rest vrest ∧
        s'.cursors = s.cursors ∧ s'.head = rest.head? ∧
        s'.tail = rest.getLast? ∧ s'.length = rest.length ∧
        s'.fresh = s.fresh) := by
  have hhead : s.head = some n0 := by simpa using dll_head hi.dll
  have hd := hi.dll
  rw [hhead] at hd
  cases hd with
  | cons _ _ _ nxt _ _ hl rest_d =>
  cases rest with
  | nil =>
    -- the popped node is the only node
    cases rest_d
    have hlen1 : s.length = 1 := by simpa using hi.len_eq
    have hlook1 : ∀ m, hlookup (hmodify s.heap n0 fun nd => { nd with next := none }) m =
        if m = n0 then some { value := v0, prev := none, next := none }
        else hlookup s.heap m := by
      intro m
      rw [hlookup_hmodify]
      by_cases hm : m = n0
      · subst hm
        simp [hl]
      · simp [hm]
    have hdom1 : ∀ n, (hlookup (hmodify s.heap n0
        fun nd => { nd with next := none }) n).isSome ↔ n ∈ [n0] := by
      intro n
      rw [hlook1]
      by_cases hn : n = n0
      · simp [hn]
      · simpa [hn] using hi.dom n
    have hrefs : refsTo { s with
        heap := hmodify s.heap n0 (fun nd => { nd with next := none }),
        head := none, tail := none, length := s.length - 1 } n0 =
        (s.cursors.map fun c => optRefs c n0).sum := by
      show optRefs none n0 + optRefs none n0 + _ + _ = _
      rw [optRefs_eq_zero (by simp), heap_refs_zero
        (by rw [hmodify_keys]; exact hi.keys) hdom1 ?_]
      · simp
      · intro k hk nd hnd
        simp only [List.mem_singleton] at hk
        subst hk
        rw [hlook1, if_pos rfl] at hnd
        cases hnd
        exact ⟨by simp, by simp⟩
    constructor
    · intro hmem
      rw [pop_eq_last hhead hl, if_neg]
      rw [hrefs]
      have := curs_sum_pos hmem
      omega
    · intro hc
      refine ⟨{ s with
          heap := hremove (hmodify s.heap n0 (fun nd => { nd with next := none })) n0,
          head := none, tail := none, length := s.length - 1 },
        ?_, ?_, rfl, rfl, rfl, by simp [hlen1], rfl⟩
      · rw [pop_eq_last hhead hl, if_pos]
        rw [hrefs]
        exact curs_sum_zero hc
      · refine ⟨DLL.nil _, rfl, by simp [hlen1], ?_, ?_, ?_, ?_, ?_⟩
        · intro n
          show (hlookup (hremove _ n0) n).isSome ↔ n ∈ []
          rw [hlookup_hremove]
          by_cases hn : n = n0
          · simp [hn]
          · rw [if_neg hn]
            simp only [List.not_mem_nil, iff_false]
            intro hsome
            exact hn (by simpa [hn] using (hdom1 n).1 hsome)
        · show ((hremove _ n0).map Prod.fst).Nodup
          apply hremove_keys_nodup
          rw [hmodify_keys]
          exact hi.keys
        · intro n hn
          cases hn
        · simp
        · intro c hc2 n hcn
          have := hi.curs c hc2 n hcn
          simp only [List.mem_singleton] at this
          subst this
          exact absurd hcn (hc c hc2)
  | cons n1 rest' =>
    -- the popped node has a successor n1
    cases rest_d with
    | cons _ _ v1 nxt1 _ vrest' hl1 rest_d2 =>
    have hnd := hi.nodup
    have hn0nin : n0 ∉ n1 :: rest' := (List.nodup_cons.1 hnd).1
    have hne01 : n0 ≠ n1 := fun he => hn0nin (he ▸ List.mem_cons_self n1 rest')
    have hn1nin : n1 ∉ rest' := (List.nodup_cons.1 (List.nodup_cons.1 hnd).2).1
    have hn0nin2 : n0 ∉ rest' := fun hm => hn0nin (List.mem_cons_of_mem _ hm)
    have hlook2 : ∀ m, hlookup (hmodify (hmodify s.heap n0
          fun nd => { nd with next := none }) n1
          fun nd => { nd with prev := none }) m =
        if m = n1 then some { value := v1, prev := none, next := nxt1 }
        else if m = n0 then some { value := v0, prev := none, next := none }
        else hlookup s.heap m := by
      intro m
      rw [hlookup_hmodify, hlookup_hmodify]
      by_cases hm1 : m = n1
      · subst hm1
        simp [Ne.symm hne01, hl1]
      · by_cases hm0 : m = n0
        · subst hm0
          simp [hm1, hl]
        · simp [hm1, hm0]
    have hdom2 : ∀ n, (hlookup (hmodify (hmodify s.heap n0
          fun nd => { nd with next := none }) n1
          fun nd => { nd with prev := none }) n).isSome ↔
        n ∈ n0 :: n1 :: rest' := by
      intro n
      rw [hlook2]
      by_cases hn1 : n = n1
      · simp [hn1]
      · by_cases hn0 : n = n0
        · simp [hn0, hne01]
        · simp only [if_neg hn1, if_neg hn0]
          rw [hi.dom n]
    have htail2 : s.tail = (n1 :: rest').getLast? := by
      rw [hi.tail_eq, List.getLast?_cons_cons]
    have htailne : s.tail ≠ some n0 := by
      rw [htail2]
      rcases hgl : (n1 :: rest').getLast? with _ | t
      · simp
      · have : t ∈ n1 :: rest' := List.mem_of_mem_getLast? hgl
        intro he
        rw [Option.some_inj] at he
        exact hn0nin (he ▸ this)
    have hnxt1ne : nxt1 ≠ some n0 := by
      have hh := dll_head rest_d2
      intro he
      rw [he] at hh
      cases rest' with
      | nil => simp at hh
      | cons a l =>
        simp only [List.head?] at hh
        rw [Option.some_inj] at hh
        exact hn0nin2 (hh ▸ List.mem_cons_self a l)
    have hrefs : refsTo { s with
        heap := hmodify (hmodify s.heap n0 (fun nd => { nd with next := none })) n1
          (fun nd => { nd with prev := none }),
        head := some n1, length := s.length - 1 } n0 =
        (s.cursors.map fun c => optRefs c n0).sum := by
      show optRefs (some n1) n0 + optRefs s.tail n0 + _ + _ = _
      rw [optRefs_eq_zero (fun he => hne01 (Option.some_inj.1 he).symm),
        optRefs_eq_zero htailne, heap_refs_zero
          (by rw [hmodify_keys, hmodify_keys]; exact hi.keys) hdom2 ?_]
      · simp
      · intro k hk nd hnd
        rw [hlook2] at hnd
        by_cases hk1 : k = n1
        · rw [if_pos hk1] at hnd
          cases hnd
          exact ⟨by simp, hnxt1ne⟩
        · by_cases hk0 : k = n0
          · rw [if_neg hk1, if_pos hk0] at hnd
            cases hnd
            exact ⟨by simp, by simp⟩
          · rw [if_neg hk1, if_neg hk0] at hnd
            have hkmem : k ∈ rest' := by
              rcases List.mem_cons.1 hk with he | hk2
              · exact absurd he hk0
              · rcases List.mem_cons.1 hk2 with he | hk3
                · exact absurd he hk1
                · exact hk3
            have hlk := dll_links rest_d2 k hkmem nd hnd
            constructor
            · intro he
              rcases hlk.2 n0 he with hp | hm
              · exact hne01 (Option.some_inj.1 hp)
              · exact hn0nin2 hm
            · intro he
              exact hn0nin2 (List.tail_subset rest' (hlk.1 n0 he))
    constructor
    · intro hmem
      rw [pop_eq_mid hhead hl, if_neg]
      rw [hrefs]
      have := curs_sum_pos hmem
      omega
    · intro hc
      refine ⟨{ s with
          heap := hremove (hmodify (hmodify s.heap n0
              (fun nd => { nd with next := none })) n1
            (fun nd => { nd with prev := none })) n0,
          head := some n1, length := s.length - 1 },
        ?_, ?_, rfl, ?_, ?_, ?_, rfl⟩
      · rw [pop_eq_mid hhead hl, if_pos]
        rw [hrefs]
        exact curs_sum_zero hc
      · refine ⟨?_, ?_, ?_, ?_, ?_, ?_, ?_, ?_⟩
        · show DLL (hremove _ n0) none (some n1) (n1 :: rest') (v1 :: vrest')
          refine DLL.cons none n1 v1 nxt1 rest' vrest' ?_ ?_
          · rw [hlookup_hremove, if_neg (Ne.symm hne01), hlook2, if_pos rfl]
          · refine dll_frame rest_d2 ?_
            intro k hk
            have hk0 : k ≠ n0 := fun he => hn0nin2 (he ▸ hk)
            have hk1 : k ≠ n1 := fun he => hn1nin (he ▸ hk)
            rw [hlookup_hremove, if_neg hk0, hlook2, if_neg hk1, if_neg hk0]
        · exact htail2
        · show s.length - 1 = (n1 :: rest').length
          have := hi.len_eq
          simp only [List.length_cons] at *
          omega
        · intro n
          show (hlookup (hremove _ n0) n).isSome ↔ n ∈ n1 :: rest'
          rw [hlookup_hremove]
          by_cases hn : n = n0
          · subst hn
            simp [hn0nin]
          · rw [if_neg hn, hdom2 n]
            simp [hn]
        · show ((hremove _ n0).map Prod.fst).Nodup
          apply hremove_keys_nodup
          rw [hmodify_keys, hmodify_keys]
          exact hi.keys
        · intro n hn
          exact hi.fresh_gt n (List.mem_cons_of_mem _ hn)
        · exact (List.nodup_cons.1 hnd).2
        · intro c hc2 n hcn
          have hmem := hi.curs c hc2 n hcn
          rcases List.mem_cons.1 hmem with he | hm
          · subst he
            exact absurd hcn (hc c hc2)
          · exact hm
      · show some n1 = (n1 :: rest').head?
        rfl
      · exact htail2
      · show s.length - 1 = (n1 :: rest').length
        have := hi.len_eq
        simp only [List.length_cons] at *
        omega

/-- Popping a log without a head returns the empty signal and the state
unchanged (`self.head.take()` on `None` does nothing, `map` is skipped). -/
theorem pop_of_head_none {s : State} (hh : s.head = none) :
    pop s = .ok (none, s) := by
  simp [pop, hh]

/-- What a successful `pop` implies on a well-formed state. -/
theorem pop_ok_inv {s : State} {ids : List Nat} {vs : List String}
    (hi : Inv s ids vs) {r : Option String} {s' : State}
    (h : pop s = .ok (r, s')) :
    (ids = [] ∧ vs = [] ∧ r = none ∧ s' = s) ∨
    (∃ n0 rest v0 vrest, ids = n0 :: rest ∧ vs = v0 :: vrest ∧ r = some v0 ∧
      Inv s' rest vrest ∧ s'.cursors = s.cursors) := by
  cases hids : ids with
  | nil =>
    subst hids
    have hvs : vs = [] := by
      have := dll_len hi.dll
      cases vs
      · rfl
      · simp at this
    subst hvs
    have hh : s.head = none := by simpa using dll_head hi.dll
    rw [pop_of_head_none hh] at h
    refine Or.inl ⟨rfl, rfl, ?_, ?_⟩
    · cases h; rfl
    · cases h; rfl
  | cons n0 rest =>
    subst hids
    cases hvs : vs with
    | nil =>
      have := dll_len hi.dll
      rw [hvs] at this
      simp at this
    | cons v0 vrest =>
      subst hvs
      by_cases hcur : some n0 ∈ s.cursors
      · rw [(pop_spec hi).1 hcur] at h
        cases h
      · have hall : ∀ c ∈ s.cursors, c ≠ some n0 := fun c hc he => hcur (he ▸ hc)
        obtain ⟨s2, heq, hinv, hcurs, _⟩ := (pop_spec hi).2 hall
        rw [heq] at h
        have hr : (some v0, s2) = (r, s') := by
          cases h
          rfl
        have hr1 : r = some v0 := (Prod.mk.injEq _ _ _ _ ▸ hr).1.symm
        have hr2 : s' = s2 := ((Prod.mk.injEq _ _ _ _ ▸ hr).2).symm
        subst hr2
        exact Or.inr ⟨n0, rest, v0, vrest, rfl, rfl, hr1, hinv, hcurs⟩

theorem inv_iter {s : State} {ids : List Nat} {vs : List String}
    (hi : Inv s ids vs) : Inv (iter s).1 ids vs := by
  refine ⟨hi.dll, hi.tail_eq, hi.len_eq, hi.dom, hi.keys, hi.fresh_gt, hi.nodup, ?_⟩
  intro c hc n hcn
  rcases List.mem_append.1 hc with hc | hc
  · exact hi.curs c hc n hcn
  · simp only [List.mem_singleton] at hc
    subst hc
    have hh := dll_head hi.dll
    rw [hcn] at hh
    exact List.mem_of_mem_head? hh.symm

theorem inv_back_iter {s : State} {ids : List Nat} {vs : List String}
    (hi : Inv s ids vs) : Inv (back_iter s).1 ids vs := by
  refine ⟨hi.dll, hi.tail_eq, hi.len_eq, hi.dom, hi.keys, hi.fresh_gt, hi.nodup, ?_⟩
  intro c hc n hcn
  rcases List.mem_append.1 hc with hc | hc
  · exact hi.curs c hc n hcn
  · simp only [List.mem_singleton] at hc
    subst hc
    have ht := hi.tail_eq
    rw [hcn] at ht
    exact List.mem_of_mem_getLast? ht.symm

/-- Advancing an iterator never changes the log: heap, head, tail, length and
allocation counter are untouched (only the iterator's own link moves). -/
theorem cursorNext_frame (s : State) (i : Nat) :
    (cursorNext s i).2.heap = s.heap ∧ (cursorNext s i).2.head = s.head ∧
    (cursorNext s i).2.tail = s.tail ∧ (cursorNext s i).2.length = s.length ∧
    (cursorNext s i).2.fresh = s.fresh := by
  cases hg : s.cursors[i]? with
  | none => simp [cursorNext, hg]
  | some link =>
    cases link with
    | none => simp [cursorNext, hg]
    | some n =>
      cases hl : hlookup s.heap n with
      | none => simp [cursorNext, hg, hl]
      | some nd => simp [cursorNext, hg, hl]

/-- Symmetric frame property for `next_back`. -/
theorem cursorNextBack_frame (s : State) (i : Nat) :
    (cursorNextBack s i).2.heap = s.heap ∧ (cursorNextBack s i).2.head = s.head ∧
    (cursorNextBack s i).2.tail = s.tail ∧ (cursorNextBack s i).2.length = s.length ∧
    (cursorNextBack s i).2.fresh = s.fresh := by
  cases hg : s.cursors[i]? with
  | none => simp [cursorNextBack, hg]
  | some link =>
    cases link with
    | none => simp [cursorNextBack, hg]
    | some n =>
      cases hl : hlookup s.heap n with
      | none => simp [cursorNextBack, hg, hl]
      | some nd => simp [cursorNextBack, hg, hl]

theorem inv_cursorNext {s : State} {ids : List Nat} {vs : List String}
    (hi : Inv s ids vs) (i : Nat) : Inv (cursorNext s i).2 ids vs := by
  cases hg : s.cursors[i]? with
  | none => simpa [cursorNext, hg] using hi
  | some link =>
    cases link with
    | none =>
      simp only [cursorNext, hg]
      refine ⟨hi.dll, hi.tail_eq, hi.len_eq, hi.dom, hi.keys, hi.fresh_gt, hi.nodup, ?_⟩
      intro c hc n hcn
      rcases List.mem_or_eq_of_mem_set hc with hc | hc
      · exact hi.curs c hc n hcn
      · rw [hc] at hcn
        cases hcn
    | some n =>
      cases hl : hlookup s.heap n with
      | none => simpa [cursorNext, hg, hl] using hi
      | some nd =>
        simp only [cursorNext, hg, hl]
        refine ⟨hi.dll, hi.tail_eq, hi.len_eq, hi.dom, hi.keys, hi.fresh_gt, hi.nodup, ?_⟩
        intro c hc m hcm
        rcases List.mem_or_eq_of_mem_set hc with hc | hc
        · exact hi.curs c hc m hcm
        · subst hc
          have hnmem : n ∈ ids := hi.curs (some n)
            (List.get?_mem (by rw [List.get?_eq_getElem?]; exact hg)) n rfl
          have hlk := dll_links hi.dll n hnmem nd hl
          exact List.tail_subset ids (hlk.1 m hcm)

theorem inv_cursorNextBack {s : State} {ids : List Nat} {vs : List String}
    (hi : Inv s ids vs) (i : Nat) : Inv (cursorNextBack s i).2 ids vs := by
  cases hg : s.cursors[i]? with
  | none => simpa [cursorNextBack, hg] using hi
  | some link =>
    cases link with
    | none =>
      simp only [cursorNextBack, hg]
      refine ⟨hi.dll, hi.tail_eq, hi.len_eq, hi.dom, hi.keys, hi.fresh_gt, hi.nodup, ?_⟩
      intro c hc n hcn
      rcases List.mem_or_eq_of_mem_set hc with hc | hc
      · exact hi.curs c hc n hcn
      · rw [hc] at hcn
        cases hcn
    | some n =>
      cases hl : hlookup s.heap n with
      | none => simpa [cursorNextBack, hg, hl] using hi
      | some nd =>
        simp only [cursorNextBack, hg, hl]
        refine ⟨hi.dll, hi.tail_eq, hi.len_eq, hi.dom, hi.keys, hi.fresh_gt, hi.nodup, ?_⟩
        intro c hc m hcm
        rcases List.mem_or_eq_of_mem_set hc with hc | hc
        · exact hi.curs c hc m hcm
        · subst hc
          have hnmem : n ∈ ids := hi.curs (some n)
            (List.get?_mem (by rw [List.get?_eq_getElem?]; exact hg)) n rfl
          have hlk := dll_links hi.dll n hnmem nd hl
          rcases hlk.2 m hcm with hp | hm
          · cases hp
          · exact hm

/-! ## Simulation of runs by the abstract queue -/

theorem append_cursors (s : State) (v : String) :
    (append s v).cursors = s.cursors := by
  cases ht : s.tail <;> simp [append, ht]

/-- Running log operations from a well-formed, iterator-free state never
panics and produces exactly the pop results of the abstract queue model. -/
theorem run_sim {s : State} {ids : List Nat} {q : List String}
    (hi : Inv s ids q) (hcur : s.cursors = []) (ops : List Op) :
    ∃ s' ids', run s ops = .ok (s', (absRun q ops).2) ∧
      Inv s' ids' (absRun q ops).1 ∧ s'.cursors = [] := by
  induction ops generalizing s ids q with
  | nil => exact ⟨s, ids, rfl, hi, hcur⟩
  | cons op ops ih =>
    cases op with
    | app v =>
      obtain ⟨s', ids', h1, h2, h3⟩ :=
        ih (inv_append hi v) ((append_cursors s v).trans hcur)
      exact ⟨s', ids', h1, h2, h3⟩
    | pop =>
      cases hids : ids with
      | nil =>
        subst hids
        have hq : q = [] := by
          have := dll_len hi.dll
          cases q
          · rfl
          · simp at this
        subst hq
        have hh : s.head = none := by simpa using dll_head hi.dll
        obtain ⟨s', ids', h1, h2, h3⟩ := ih hi hcur
        refine ⟨s', ids', ?_, h2, h3⟩
        simp only [run, pop_of_head_none hh, absRun, h1]
        rfl
      | cons n0 rest =>
        subst hids
        cases hq : q with
        | nil =>
          have := dll_len hi.dll
          rw [hq] at this
          simp at this
        | cons v0 vrest =>
          subst hq
          have hall : ∀ c ∈ s.cursors, c ≠ some n0 := by
            rw [hcur]
            intro c hc
            cases hc
          obtain ⟨s2, heq, hinv2, hcurs2, _⟩ := (pop_spec hi).2 hall
          obtain ⟨s', ids', h1, h2, h3⟩ := ih hinv2 (hcurs2.trans hcur)
          refine ⟨s', ids', ?_, h2, h3⟩
          simp only [run, heq, absRun, h1]
          rfl

theorem absRun_apps (q : List String) (vs : List String) (ops : List Op) :
    absRun q (vs.map Op.app ++ ops) = absRun (q ++ vs) ops := by
  induction vs generalizing q with
  | nil => simp
  | cons v vs ih =>
    show absRun (q ++ [v]) (vs.map Op.app ++ ops) = _
    rw [ih]
    simp

theorem absRun_pops (q : List String) :
    absRun q (List.replicate (q.length + 1) Op.pop) = ([], q.map some ++ [none]) := by
  induction q with
  | nil => rfl
  | cons v q ih =>
    have hrep : List.replicate ((v :: q).length + 1) Op.pop =
        Op.pop :: List.replicate (q.length + 1) Op.pop := by
      simp [List.replicate_succ]
    rw [hrep]
    show ((absRun q (List.replicate (q.length + 1) Op.pop)).1,
        some v :: (absRun q (List.replicate (q.length + 1) Op.pop)).2) = _
    rw [ih]
    rfl

theorem absRun_count (q : List String) (ops : List Op) :
    (absRun q ops).1.length + ((absRun q ops).2.filter Option.isSome).length =
      q.length + countApps ops := by
  induction ops generalizing q with
  | nil => simp [absRun, countApps]
  | cons op ops ih =>
    cases op with
    | app v =>
      have h1 : absRun q (Op.app v :: ops) = absRun (q ++ [v]) ops := rfl
      have h2 : countApps (Op.app v :: ops) = countApps ops + 1 := by
        simp [countApps, List.filter_cons]
      rw [h1, h2, ih (q ++ [v])]
      simp only [List.length_append, List.length_singleton]
      omega
    | pop =>
      have h1 : absRun q (Op.pop :: ops) =
          ((absRun q.tail ops).1, q.head? :: (absRun q.tail ops).2) := rfl
      have h2 : countApps (Op.pop :: ops) = countApps ops := by
        simp [countApps, List.filter_cons]
      rw [h1, h2]
      cases q with
      | nil =>
        have h3 := ih ([] : List String)
        simp only [List.tail_nil, List.head?_nil, List.filter_cons] at *
        simpa using h3
      | cons v q =>
        have h3 := ih q
        simp only [List.tail_cons, List.head?_cons, List.filter_cons] at *
        simp at h3 ⊢
        omega


/-- Every reachable state is well-formed. -/
theorem reachable_inv {s : State} (h : Reachable s) : ∃ ids vs, Inv s ids vs := by
  induction h with
  | new => exact ⟨[], [], inv_new⟩
  | app s v _ ih =>
    obtain ⟨ids, vs, hi⟩ := ih
    exact ⟨_, _, inv_append hi v⟩
  | popped s r s' _ hp ih =>
    obtain ⟨ids, vs, hi⟩ := ih
    rcases pop_ok_inv hi hp with ⟨_, _, _, he⟩ | ⟨n0, rest, v0, vrest, _, _, _, hinv, _⟩
    · subst he
      exact ⟨ids, vs, hi⟩
    · exact ⟨rest, vrest, hinv⟩
  | mkIter s _ ih =>
    obtain ⟨ids, vs, hi⟩ := ih
    exact ⟨ids, vs, inv_iter hi⟩
  | mkBackIter s _ ih =>
    obtain ⟨ids, vs, hi⟩ := ih
    exact ⟨ids, vs, inv_back_iter hi⟩
  | stepFwd s i _ ih =>
    obtain ⟨ids, vs, hi⟩ := ih
    exact ⟨ids, vs, inv_cursorNext hi i⟩
  | stepBwd s i _ ih =>
    obtain ⟨ids, vs, hi⟩ := ih
    exact ⟨ids, vs, inv_cursorNextBack hi i⟩

/-! ## Cursor movement along the chain -/

/-- The first node of a chain stores `p` as its `prev`. -/
theorem dll_first_prev {h : Heap} {p c : Option Nat} {ids : List Nat}
    {vs : List String} (d : DLL h p c ids vs) :
    ∀ n nd, c = some n → hlookup h n = some nd → nd.prev = p := by
  cases d with
  | nil =>
    intro n nd hc
    cases hc
  | cons _ _ _ _ _ _ hl _ =>
    intro n nd hc hnd
    cases hc
    rw [hl] at hnd
    cases hnd
    rfl

/-- The stored `next` of the node at position `j` is the id at position
`j + 1` (absent past the end). -/
theorem dll_get_next {h : Heap} {p c : Option Nat} {ids : List Nat}
    {vs : List String} (d : DLL h p c ids vs) :
    ∀ j n nd, ids.get? j = some n → hlookup h n = some nd →
      nd.next = ids.get? (j + 1) := by
  induction d with
  | nil =>
    intro j n nd hj
    simp at hj
  | cons p n0 v nxt ids vs hl rest ih =>
    intro j m nd hj hnd
    cases j with
    | zero =>
      simp only [List.get?] at hj
      cases hj
      rw [hl] at hnd
      cases hnd
      show nxt = (n0 :: ids).get? 1
      have := dll_head rest
      cases ids with
      | nil =>
        cases rest
        rfl
      | cons b l =>
        simp only [List.head?] at this
        rw [this]
        rfl
    | succ j2 =>
      simp only [List.get?] at hj
      have := ih j2 m nd hj hnd
      rw [this]
      rfl

/-- One forward advance of a cursor sitting (virtually) at position `j` of
the chain moves it to position `j + 1` and touches nothing else. -/
theorem cursor_advance {s : State} {ids : List Nat} {vs : List String}
    (hi : Inv s ids vs) (i j : Nat)
    (hc : s.cursors[i]? = some (ids.get? j)) :
    (cursorNext s i).2.cursors[i]? = some (ids.get? (j + 1)) ∧
    Inv (cursorNext s i).2 ids vs ∧
    (cursorNext s i).2.heap = s.heap ∧
    (cursorNext s i).2.head = s.head ∧
    (cursorNext s i).2.length = s.length ∧
    (cursorNext s i).2.cursors.length = s.cursors.length := by
  have hilt : i < s.cursors.length := by
    by_contra hge
    rw [List.getElem?_eq_none (Nat.le_of_not_lt hge)] at hc
    cases hc
  cases hj : ids.get? j with
  | none =>
    rw [hj] at hc
    have hnext : ids.get? (j + 1) = none := by
      have := List.get?_eq_none.1 hj
      exact List.get?_eq_none.2 (Nat.le_succ_of_le this)
    rw [hnext]
    refine ⟨?_, inv_cursorNext hi i, ?_, ?_, ?_, ?_⟩ <;>
      simp [cursorNext, hc, List.getElem?_set_self, hilt]
  | some n =>
    rw [hj] at hc
    have hnmem : n ∈ ids := List.get?_mem hj
    have hsome : (hlookup s.heap n).isSome := (hi.dom n).2 hnmem
    rcases Option.isSome_iff_exists.1 hsome with ⟨nd, hnd⟩
    have hnext : nd.next = ids.get? (j + 1) := dll_get_next hi.dll j n nd hj hnd
    refine ⟨?_, inv_cursorNext hi i, ?_, ?_, ?_, ?_⟩ <;>
      simp [cursorNext, hc, hnd, hnext, List.getElem?_set_self, hilt]

/-- Iterated forward advance from position `j` lands at position `j + k`. -/
theorem cursor_advanceN {s : State} {ids : List Nat} {vs : List String}
    (hi : Inv s ids vs) (i j k : Nat)
    (hc : s.cursors[i]? = some (ids.get? j)) :
    (advanceN s i k).cursors[i]? = some (ids.get? (j + k)) ∧
    Inv (advanceN s i k) ids vs ∧
    (advanceN s i k).heap = s.heap ∧
    (advanceN s i k).head = s.head ∧
    (advanceN s i k).length = s.length ∧
    (advanceN s i k).cursors.length = s.cursors.length := by
  induction k generalizing s j with
  | zero => exact ⟨hc, hi, rfl, rfl, rfl, rfl⟩
  | succ k2 ih =>
    obtain ⟨h1, h2, h3, h4, h5, h6⟩ := cursor_advance hi i j hc
    obtain ⟨g1, g2, g3, g4, g5, g6⟩ := ih h2 (j + 1) h1
    refine ⟨?_, g2, g3.trans h3, g4.trans h4, g5.trans h5, g6.trans h6⟩
    show (advanceN (cursorNext s i).2 i k2).cursors[i]? = some (ids.get? (j + (k2 + 1)))
    rw [g1]
    have harith : j + 1 + k2 = j + (k2 + 1) := by omega
    rw [harith]

/-! ## Remaining helpers -/


theorem dll_to_walk {h : Heap} {p c : Option Nat} {ids : List Nat}
    {vs : List String} (d : DLL h p c ids vs) : NextWalk h c ids := by
  induction d with
  | nil => exact NextWalk.nil
  | cons p n v nxt ids vs hl _ ih => exact NextWalk.cons n _ ids hl ih

theorem inv_vs_cons {s : State} {n0 : Nat} {rest : List Nat} {vs : List String}
    (hi : Inv s (n0 :: rest) vs) : ∃ v0 vrest, vs = v0 :: vrest := by
  have hlen := dll_len hi.dll
  cases vs with
  | nil => simp at hlen
  | cons v0 vrest => exact ⟨v0, vrest, rfl⟩

theorem list_singleton_of_len_one {α : Type} {l : List α} {a : α}
    (hlen : l.length = 1) (h0 : l[0]? = some a) : l = [a] := by
  cases l with
  | nil => cases h0
  | cons x t =>
    cases t with
    | nil =>
      simp only [List.getElem?_cons_zero, Option.some_inj] at h0
      rw [h0]
    | cons y u => simp at hlen

/-! ## The claims -/

/-- C1: FIFO order: for every list of values, appending them to a fresh log
and then popping `N + 1` times succeeds and yields exactly the appended
values in append order, followed by the empty signal. -/
theorem C1_fifo (vs : List String) :
    ∃ s', run new (vs.map Op.app ++ List.replicate (vs.length + 1) Op.pop) =
      .ok (s', vs.map some ++ [none]) := by
  obtain ⟨s', ids', h1, _, _⟩ := run_sim inv_new rfl
    (vs.map Op.app ++ List.replicate (vs.length + 1) Op.pop)
  have habs : absRun [] (vs.map Op.app ++ List.replicate (vs.length + 1) Op.pop) =
      ([], vs.map some ++ [none]) := by
    rw [absRun_apps]
    simpa using absRun_pops vs
  rw [habs] at h1
  exact ⟨s', h1⟩

/-- C8: length accounting: any interleaved run of appends and pops from a
fresh log never panics, and the final `length` plus the number of successful
pops equals the number of appends. -/
theorem C8_length (ops : List Op) :
    ∃ s' outs, run new ops = .ok (s', outs) ∧
      s'.length + (outs.filter Option.isSome).length = countApps ops := by
  obtain ⟨s', ids', h1, h2, _⟩ := run_sim inv_new rfl ops
  refine ⟨s', (absRun [] ops).2, h1, ?_⟩
  have hc := absRun_count [] ops
  simp only [List.length_nil, Nat.zero_add] at hc
  rw [h2.len_eq, dll_len h2.dll]
  exact hc

/-- C3: in every reachable state, (i) `length`, `head` and `tail` are
empty/non-empty together, (ii) `next`/`prev` of stored nodes are symmetric,
(iii) the head node's `prev` and the tail node's `next` are absent, and
(iv) `length` counts the nodes reachable by following `next` from `head`. -/
theorem C3_invariants (s : State) (hr : Reachable s) :
    ((s.length = 0 ↔ s.head = none) ∧ (s.head = none ↔ s.tail = none)) ∧
    (∀ a b nda ndb, hlookup s.heap a = some nda → hlookup s.heap b = some ndb →
      (nda.next = some b ↔ ndb.prev = some a)) ∧
    (∀ hd nd, s.head = some hd → hlookup s.heap hd = some nd → nd.prev = none) ∧
    (∀ t nd, s.tail = some t → hlookup s.heap t = some nd → nd.next = none) ∧
    (∃ ids, NextWalk s.heap s.head ids ∧ s.length = ids.length) := by
  obtain ⟨ids, vs, hi⟩ := reachable_inv hr
  have hhead := dll_head hi.dll
  refine ⟨⟨?_, ?_⟩, ?_, ?_, ?_, ⟨ids, dll_to_walk hi.dll, hi.len_eq⟩⟩
  · rw [hi.len_eq, hhead]
    cases ids <;> simp
  · rw [hhead, hi.tail_eq]
    cases ids with
    | nil => simp
    | cons a l =>
      simp only [List.head?]
      constructor
      · intro h
        cases h
      · intro h
        exact absurd (List.getLast?_eq_none_iff.1 h) (by simp)
  · intro a b nda ndb hnda hndb
    have hamem : a ∈ ids := (hi.dom a).1 (by simp [hnda])
    have hbmem : b ∈ ids := (hi.dom b).1 (by simp [hndb])
    constructor
    · intro hn
      exact dll_next_prev hi.dll a hamem nda hnda b hn ndb hndb
    · intro hp
      rcases dll_prev_next hi.dll b hbmem ndb hndb a hp with ⟨hpa, _⟩ | ⟨nda2, hnda2, hnext⟩
      · cases hpa
      · rw [hnda] at hnda2
        cases hnda2
        exact hnext
  · intro hd nd hh hnd
    exact dll_first_prev hi.dll hd nd hh hnd
  · intro t nd ht hnd
    obtain ⟨nd2, hnd2, hnext⟩ := dll_last hi.dll t (by rw [← hi.tail_eq]; exact ht)
    rw [hnd] at hnd2
    cases hnd2
    exact hnext

/-- Witness for C3 at the concrete reachable one-element log. -/
theorem C3_invariants_witness :
    (((append new "A").length = 0 ↔ (append new "A").head = none) ∧
      ((append new "A").head = none ↔ (append new "A").tail = none)) ∧
    (∀ a b nda ndb, hlookup (append new "A").heap a = some nda →
      hlookup (append new "A").heap b = some ndb →
      (nda.next = some b ↔ ndb.prev = some a)) ∧
    (∀ hd nd, (append new "A").head = some hd →
      hlookup (append new "A").heap hd = some nd → nd.prev = none) ∧
    (∀ t nd, (append new "A").tail = some t →
      hlookup (append new "A").heap t = some nd → nd.next = none) ∧
    (∃ ids, NextWalk (append new "A").heap (append new "A").head ids ∧
      (append new "A").length = ids.length) :=
  C3_invariants (append new "A") (Reachable.app new "A" Reachable.new)

/-- C5: forward/backward duality: in every reachable state, draining a
forward iterator seeded at `head` yields the reverse of draining a backward
iterator seeded at `tail` (for any sufficient fuel). -/
theorem C5_duality (s : State) (fuel : Nat) (hr : Reachable s)
    (hf : s.length ≤ fuel) :
    collectFwd s.heap s.head fuel = (collectBwd s.heap s.tail fuel).reverse := by
  obtain ⟨ids, vs, hi⟩ := reachable_inv hr
  have hlenf : ids.length ≤ fuel := by
    rw [← hi.len_eq]
    exact hf
  have hfwd : collectFwd s.heap s.head fuel = vs := collect_fwd_dll hi.dll fuel hlenf
  rcases hlast : ids.getLast? with _ | t
  · have hids : ids = [] := List.getLast?_eq_none_iff.1 hlast
    subst hids
    have hvs : vs = [] := by
      have := dll_len hi.dll
      cases vs
      · rfl
      · simp at this
    have htail : s.tail = none := by simpa using hi.tail_eq
    rw [hfwd, hvs, htail, collectBwd_none]
    rfl
  · have htail : s.tail = some t := by rw [hi.tail_eq, hlast]
    have hbwd := collect_bwd_dll hi.dll t hlast fuel hlenf
    rw [hfwd, htail, hbwd, collectBwd_none]
    simp

/-- Witness for C5 at a concrete two-element reachable log. -/
theorem C5_duality_witness :
    collectFwd (append (append new "A") "B").heap (append (append new "A") "B").head 2 =
      (collectBwd (append (append new "A") "B").heap
        (append (append new "A") "B").tail 2).reverse :=
  C5_duality (append (append new "A") "B") 2
    (Reachable.app (append new "A") "B" (Reachable.app new "A" Reachable.new))
    (by decide)

/-- C6: popping an empty log (length 0, head and tail absent) returns the
empty signal and returns the state completely unchanged. -/
theorem C6_pop_empty (s : State) (hlen : s.length = 0) (hh : s.head = none)
    (ht : s.tail = none) :
    pop s = .ok (none, s) ∧ s.length = 0 ∧ s.head = none ∧ s.tail = none :=
  ⟨pop_of_head_none hh, hlen, hh, ht⟩

/-- Witness for C6 at the fresh log. -/
theorem C6_pop_empty_witness :
    pop new = .ok (none, new) ∧ new.length = 0 ∧ new.head = none ∧
      new.tail = none :=
  C6_pop_empty new rfl rfl rfl

/-- C7: append on a non-empty log increments `length`, replaces `tail`,
leaves `head`, the iterators and every pre-existing node other than the old
tail untouched, only sets the old tail's `next` (its value and `prev` are
kept), and stores the new node with `prev` the old tail and no `next`. -/
theorem C7_append_frame (s : State) (t : Nat) (v : String)
    (ht : s.tail = some t) (htf : t ≠ s.fresh) :
    (append s v).length = s.length + 1 ∧
    (append s v).head = s.head ∧
    (append s v).tail = some s.fresh ∧
    (append s v).cursors = s.cursors ∧
    (∀ k, k ≠ t → k ≠ s.fresh →
      hlookup (append s v).heap k = hlookup s.heap k) ∧
    (∀ nd, hlookup s.heap t = some nd →
      hlookup (append s v).heap t =
        some { value := nd.value, prev := nd.prev, next := some s.fresh }) ∧
    hlookup (append s v).heap s.fresh =
      some { value := v, prev := some t, next := none } := by
  rw [append_of_tail_some s v t ht]
  refine ⟨rfl, rfl, rfl, rfl, ?_, ?_, ?_⟩
  · intro k hkt hkf
    show hlookup (hmodify (hmodify _ t _) s.fresh _) k = _
    rw [hlookup_hmodify, if_neg hkf, hlookup_hmodify, if_neg hkt]
    simp [hlookup, Ne.symm hkf]
  · intro nd hnd
    show hlookup (hmodify (hmodify _ t _) s.fresh _) t = _
    rw [hlookup_hmodify, if_neg htf, hlookup_hmodify, if_pos rfl]
    simp [hlookup, Ne.symm htf, hnd]
  · show hlookup (hmodify (hmodify _ t _) s.fresh _) s.fresh = _
    rw [hlookup_hmodify, if_pos rfl, hlookup_hmodify, if_neg (Ne.symm htf)]
    simp [hlookup]

/-- Witness for C7: appending "B" after "A". -/
theorem C7_append_frame_witness :
    (append (append new "A") "B").length = (append new "A").length + 1 ∧
    (append (append new "A") "B").head = (append new "A").head ∧
    (append (append new "A") "B").tail = some (append new "A").fresh ∧
    (append (append new "A") "B").cursors = (append new "A").cursors ∧
    (∀ k, k ≠ 0 → k ≠ (append new "A").fresh →
      hlookup (append (append new "A") "B").heap k =
        hlookup (append new "A").heap k) ∧
    (∀ nd, hlookup (append new "A").heap 0 = some nd →
      hlookup (append (append new "A") "B").heap 0 =
        some { value := nd.value, prev := nd.prev,
               next := some (append new "A").fresh }) ∧
    hlookup (append (append new "A") "B").heap (append new "A").fresh =
      some { value := "B", prev := some 0, next := none } :=
  C7_append_frame (append new "A") 0 "B" rfl (by decide)

/-- C9: both advance operations on an exhausted cursor return the exhausted
signal and leave the whole state unchanged, for arbitrarily many repetitions
in either direction. -/
theorem C9_exhausted (s : State) (i : Nat) (h : s.cursors[i]? = some none) :
    cursorNext s i = (none, s) ∧ cursorNextBack s i = (none, s) ∧
    (∀ k, advanceN s i k = s) ∧ (∀ k, advanceBackN s i k = s) := by
  have hset : s.cursors.set i none = s.cursors :=
    list_set_get?_self _ _ _ (by rw [List.get?_eq_getElem?]; exact h)
  have h1 : cursorNext s i = (none, s) := by
    simp [cursorNext, h, hset]
  have h2 : cursorNextBack s i = (none, s) := by
    simp [cursorNextBack, h, hset]
  refine ⟨h1, h2, ?_, ?_⟩
  · intro k
    induction k with
    | zero => rfl
    | succ n ih =>
      show advanceN (cursorNext s i).2 i n = s
      rw [h1]
      exact ih
  · intro k
    induction k with
    | zero => rfl
    | succ n ih =>
      show advanceBackN (cursorNextBack s i).2 i n = s
      rw [h2]
      exact ih

/-- Witness for C9: the iterator of an empty log is exhausted from the start. -/
theorem C9_exhausted_witness :
    cursorNext (iter new).1 0 = (none, (iter new).1) ∧
    cursorNextBack (iter new).1 0 = (none, (iter new).1) ∧
    (∀ k, advanceN (iter new).1 0 k = (iter new).1) ∧
    (∀ k, advanceBackN (iter new).1 0 k = (iter new).1) :=
  C9_exhausted (iter new).1 0 rfl

/-- C2 counterexample: on a one-element log, `iter()` (cursor at the head)
followed by `pop()` hits the `Rc::try_unwrap` panic — the pop does NOT
succeed with deferred reclamation, and the fatal reclaim-while-shared
condition IS reachable through the public API. -/
theorem C2_counterexample :
    pop (iter (append new "A")).1 = .error () := rfl

/-- C2 amended: in any reachable state, if a live cursor still references
the head node then `pop` panics (models `expect("Something is terribly
wrong")`); reclamation is never deferred. -/
theorem C2_pop_blocked_by_cursor (s : State) (h0 : Nat) (hr : Reachable s)
    (hh : s.head = some h0) (hc : some h0 ∈ s.cursors) :
    pop s = .error () := by
  obtain ⟨ids, vs, hi⟩ := reachable_inv hr
  have hhead := dll_head hi.dll
  rw [hh] at hhead
  cases ids with
  | nil => simp at hhead
  | cons n0 rest =>
    simp only [List.head?, Option.some_inj] at hhead
    subst hhead
    obtain ⟨v0, vrest, hvs⟩ := inv_vs_cons hi
    subst hvs
    exact (pop_spec hi).1 hc

/-- Witness for the amended C2 at the concrete iter-then-pop state. -/
theorem C2_pop_blocked_witness :
    Reachable (iter (append new "A")).1 ∧
    (iter (append new "A")).1.head = some 0 ∧
    some 0 ∈ (iter (append new "A")).1.cursors ∧
    pop (iter (append new "A")).1 = .error () :=
  ⟨Reachable.mkIter _ (Reachable.app new "A" Reachable.new), rfl, by decide,
    C2_pop_blocked_by_cursor _ 0
      (Reachable.mkIter _ (Reachable.app new "A" Reachable.new)) rfl (by decide)⟩

/-- C4 counterexample: a cursor created by `iter()` before an append DOES
yield the value appended afterwards: on the log ["A"], after `iter()` and
`append "B"`, draining the cursor (still seeded at node 0) yields
["A", "B"], although at creation time the log only held ["A"]. -/
theorem C4_counterexample :
    (append (iter (append new "A")).1 "B").cursors = [some 0] ∧
    collectFwd (append (iter (append new "A")).1 "B").heap (some 0) 2 =
      ["A", "B"] ∧
    collectFwd (append new "A").heap (append new "A").head 2 = ["A"] :=
  ⟨rfl, rfl, rfl⟩

/-- C4 amended: a cursor's advances never mutate the log (heap, head, tail,
length are untouched), but the cursor observes the live chain: after an
append to a non-empty reachable log, draining from the old head yields the
old values plus the newly appended one — later appends DO extend the view. -/
theorem C4_cursor_semantics (s : State) (h0 : Nat) (v : String)
    (hr : Reachable s) (hh : s.head = some h0) :
    (∀ s1 i, (cursorNext s1 i).2.heap = s1.heap ∧
      (cursorNext s1 i).2.head = s1.head ∧
      (cursorNext s1 i).2.tail = s1.tail ∧
      (cursorNext s1 i).2.length = s1.length) ∧
    (∀ s1 i, (cursorNextBack s1 i).2.heap = s1.heap ∧
      (cursorNextBack s1 i).2.head = s1.head ∧
      (cursorNextBack s1 i).2.tail = s1.tail ∧
      (cursorNextBack s1 i).2.length = s1.length) ∧
    collectFwd (append s v).heap s.head (s.length + 1) =
      collectFwd s.heap s.head s.length ++ [v] := by
  refine ⟨?_, ?_, ?_⟩
  · intro s1 i
    obtain ⟨a, b, c, d, _⟩ := cursorNext_frame s1 i
    exact ⟨a, b, c, d⟩
  · intro s1 i
    obtain ⟨a, b, c, d, _⟩ := cursorNextBack_frame s1 i
    exact ⟨a, b, c, d⟩
  · obtain ⟨ids, vs, hi⟩ := reachable_inv hr
    have hfwd_old : collectFwd s.heap s.head s.length = vs :=
      collect_fwd_dll hi.dll s.length (le_of_eq hi.len_eq.symm)
    have hi2 := inv_append hi v
    have hhead := dll_head hi.dll
    rw [hh] at hhead
    have hne : ids ≠ [] := by
      intro he
      rw [he] at hhead
      simp at hhead
    have htail : ∃ t, s.tail = some t := by
      rw [hi.tail_eq]
      rcases hgl : ids.getLast? with _ | t
      · exact absurd (List.getLast?_eq_none_iff.1 hgl) hne
      · exact ⟨t, rfl⟩
    obtain ⟨t, ht⟩ := htail
    have happ_head : (append s v).head = s.head := by
      rw [append_of_tail_some s v t ht]
    have hfwd_new : collectFwd (append s v).heap (append s v).head
        ((ids ++ [s.fresh]).length) = vs ++ [v] :=
      collect_fwd_dll hi2.dll _ le_rfl
    rw [happ_head] at hfwd_new
    have hlen2 : (ids ++ [s.fresh]).length = s.length + 1 := by
      rw [hi.len_eq]
      simp
    rw [hlen2] at hfwd_new
    rw [hfwd_new, hfwd_old]

/-- Witness for the amended C4 at the one-element log with "B" appended. -/
theorem C4_cursor_semantics_witness :
    (∀ s1 i, (cursorNext s1 i).2.heap = s1.heap ∧
      (cursorNext s1 i).2.head = s1.head ∧
      (cursorNext s1 i).2.tail = s1.tail ∧
      (cursorNext s1 i).2.length = s1.length) ∧
    (∀ s1 i, (cursorNextBack s1 i).2.heap = s1.heap ∧
      (cursorNextBack s1 i).2.head = s1.head ∧
      (cursorNextBack s1 i).2.tail = s1.tail ∧
      (cursorNextBack s1 i).2.length = s1.length) ∧
    collectFwd (append (append new "A") "B").heap (append new "A").head
        ((append new "A").length + 1) =
      collectFwd (append new "A").heap (append new "A").head
        (append new "A").length ++ ["B"] :=
  C4_cursor_semantics (append new "A") 0 "B"
    (Reachable.app new "A" Reachable.new) rfl

/-- C10: a cursor advanced past the head does not block pop: starting from
any cursor-free reachable log of length at least 2, creating one iterator
and advancing it forward at least once, `pop` succeeds and returns the head
node's value. -/
theorem C10_pop_after_cursor_advance (s : State) (h0 : Nat) (nd0 : Node)
    (k : Nat) (hr : Reachable s) (hcur : s.cursors = [])
    (hh : s.head = some h0) (hl : hlookup s.heap h0 = some nd0)
    (hlen : 2 ≤ s.length) (hk : 1 ≤ k) :
    ∃ s', pop (advanceN (iter s).1 0 k) = .ok (some nd0.value, s') := by
  obtain ⟨ids, vs, hi⟩ := reachable_inv hr
  have hhead := dll_head hi.dll
  rw [hh] at hhead
  cases ids with
  | nil => simp at hhead
  | cons n0 rest =>
    simp only [List.head?, Option.some_inj] at hhead
    subst hhead
    obtain ⟨v0, vrest, hvs⟩ := inv_vs_cons hi
    subst hvs
    have hval : nd0.value = v0 := by
      have hd := hi.dll
      rw [hh] at hd
      cases hd with
      | cons _ _ _ nxt _ _ hl2 _ =>
        rw [hl] at hl2
        cases hl2
        rfl
    have hi1 : Inv (iter s).1 (h0 :: rest) (v0 :: vrest) := inv_iter hi
    have hc1 : (iter s).1.cursors[0]? = some ((h0 :: rest).get? 0) := by
      show (s.cursors ++ [s.head])[0]? = _
      rw [hcur, hh]
      rfl
    obtain ⟨g1, g2, _, _, _, g6⟩ := cursor_advanceN hi1 0 0 k hc1
    have hlen1 : (advanceN (iter s).1 0 k).cursors.length = 1 := by
      rw [g6]
      show (s.cursors ++ [s.head]).length = 1
      rw [hcur]
      rfl
    have hcl : (advanceN (iter s).1 0 k).cursors = [(h0 :: rest).get? (0 + k)] :=
      list_singleton_of_len_one hlen1 g1
    have hall : ∀ c ∈ (advanceN (iter s).1 0 k).cursors, c ≠ some h0 := by
      intro c hcmem
      rw [hcl] at hcmem
      simp only [List.mem_singleton] at hcmem
      subst hcmem
      rcases hgk : (h0 :: rest).get? (0 + k) with _ | m
      · simp
      · intro he
        rw [Option.some_inj] at he
        have hgk2 : (h0 :: rest).get? (0 + k) = some h0 := by rw [hgk, he]
        have h00 : ((h0 :: rest).get? 0 : Option Nat) = some h0 := rfl
        have hzlt : (0 : Nat) < (h0 :: rest).length := by simp
        have heq0 : (0 : Nat) = 0 + k := by
          apply List.getElem?_inj hzlt hi.nodup
          rw [← List.get?_eq_getElem?, ← List.get?_eq_getElem?, h00, hgk2]
        omega
    obtain ⟨s', heq, _⟩ := (pop_spec g2).2 hall
    rw [hval]
    exact ⟨s', heq⟩

/-- Witness for C10: log ["A", "B"], one iterator advanced once, then pop
returns "A". -/
theorem C10_pop_after_cursor_advance_witness :
    ∃ s', pop (advanceN (iter (append (append new "A") "B")).1 0 1) =
      .ok (some "A", s') :=
  C10_pop_after_cursor_advance (append (append new "A") "B") 0
    { value := "A", prev := none, next := some 1 } 1
    (Reachable.app (append new "A") "B" (Reachable.app new "A" Reachable.new))
    rfl rfl rfl (by decide) (by decide)

end TLog
